import Mathlib

/-!
Verification of the iQon activity relay (src/main.go, polling variant).

The Go program polls a chat platform's activity timeline, resolves opaque
user/channel ids through lazily learned caches, deduplicates changes per
channel path within one tick, and fans the result out to subscribers.

Shallow embedding conventions:
* Go `map[string]T` is modelled as an association list `List (String × T)`
  with in-place overwrite (`mapInsert`) and first-match lookup (`mapLookup`);
  this has exactly the lookup/insert semantics of a Go map.
* `time.Time` becomes `Nat`; `t.After(u)` is `u < t`.
* The two remote single-entity fetches are injected as oracles
  `String → Option User` / `String → Option Channel`, `none` meaning
  transport failure or a non-200 response.
* The unbounded `for` loop of `resolveChannelPath` is given an explicit
  fuel parameter; `none` means the fuel ran out, i.e. the Go loop has not
  returned within that many iterations.
* The sequential embedding of `resolveUser` collapses the post-fetch
  re-check (no concurrent writer exists in a sequential run); the
  interleaved model `concStep` below keeps the re-check explicit.
-/

set_option maxHeartbeats 1000000

namespace IQon

/-- Go-map lookup on an association list (keys are unique by construction). -/
def mapLookup {α : Type} : List (String × α) → String → Option α
  | [], _ => none
  | (k', v) :: rest, k => if k' = k then some v else mapLookup rest k

/-- Go-map insert: overwrite in place if the key is present, append otherwise. -/
def mapInsert {α : Type} : List (String × α) → String → α → List (String × α)
  | [], k, v => [(k, v)]
  | (k', v') :: rest, k, v =>
    if k' = k then (k, v) :: rest else (k', v') :: mapInsert rest k v

/-- `Channel` struct of src/main.go. -/
structure Channel where
  id : String
  name : String
  parentId : String
  deriving DecidableEq, Repr

/-- `User` struct of src/main.go. -/
structure User where
  id : String
  name : String
  bot : Bool
  deriving DecidableEq, Repr

/-- `ActivityMessage` struct of src/main.go; `createdAt` is modelled as `Nat`. -/
structure ActivityMessage where
  id : String
  userId : String
  channelId : String
  content : String
  createdAt : Nat
  deriving DecidableEq, Repr

/-- `ExtensionUpdate` struct of src/main.go (one outbound UPDATE message). -/
structure ExtensionUpdate where
  type : String
  channelPath : String
  username : String
  deriving DecidableEq, Repr

/-- The mutable globals of src/main.go that the poller touches:
`userMap`, `channelMap`, `lastSpeakers` (the StateStore) and
`lastCheckTime` (the Watermark). -/
structure SysState where
  userMap : List (String × String)
  channelMap : List (String × Channel)
  lastSpeakers : List (String × String)
  lastCheckTime : Nat
  deriving DecidableEq, Repr

/-- The sentinel root marker `"00000000-0000-0000-0000-000000000000"`
compared against in `resolveChannelPath` (src/main.go line 272). -/
def rootSentinel : String := "00000000-0000-0000-0000-000000000000"

/-- Result of one `resolveUser` call: the returned name, the user map after
the call, and whether a remote fetch was issued during the call. -/
structure UserResolution where
  name : String
  userMap : List (String × String)
  didFetch : Bool
  deriving DecidableEq, Repr

/-- `resolveUser` of src/main.go (lines 200-234), sequential view.
Cache hit returns the cached name without fetching; on miss the single-entity
fetch runs and the result (or the `"webhook"` fallback on failure) is stored.
The in-between re-check of the Go code is the identity in a sequential run
and is modelled explicitly in `concStep` below. -/
def resolveUser (fetchU : String → Option User) (um : List (String × String))
    (userID : String) : UserResolution :=
  match mapLookup um userID with
  | some name => ⟨name, um, false⟩
  | none =>
    match fetchU userID with
    | none => ⟨"webhook", mapInsert um userID "webhook", true⟩
    | some u => ⟨u.name, mapInsert um userID u.name, true⟩

/-- The `for` loop of `resolveChannelPath` (src/main.go lines 244-276) with
explicit fuel. Returns the produced path (`""` meaning unresolved, exactly as
in the Go code) together with the channel map after any lazy learning;
`none` means the loop has not returned within `fuel` iterations. -/
def pathLoop (fetchC : String → Option Channel) :
    Nat → List (String × Channel) → String → String →
    Option (String × List (String × Channel))
  | 0, _, _, _ => none
  | fuel + 1, cm, currentID, path =>
    match mapLookup cm currentID with
    | some ch =>
      if ch.parentId = "" ∨ ch.parentId = rootSentinel then
        some ("/channels" ++ ("/" ++ ch.name ++ path), cm)
      else
        pathLoop fetchC fuel cm ch.parentId ("/" ++ ch.name ++ path)
    | none =>
      match fetchC currentID with
      | none => some ("", cm)
      | some ch =>
        if ch.parentId = "" ∨ ch.parentId = rootSentinel then
          some ("/channels" ++ ("/" ++ ch.name ++ path), mapInsert cm currentID ch)
        else
          pathLoop fetchC fuel (mapInsert cm currentID ch) ch.parentId
            ("/" ++ ch.name ++ path)

/-- `resolveChannelPath` of src/main.go (lines 237-279). -/
def resolveChannelPath (fetchC : String → Option Channel) (fuel : Nat)
    (cm : List (String × Channel)) (channelID : String) :
    Option (String × List (String × Channel)) :=
  pathLoop fetchC fuel cm channelID ""

/-- Pure read-only chain walk: the complete path of `currentID` through `cm`
with no fetching; `none` if some link is missing or the fuel runs out.
Used to state that any non-empty string emitted by `pathLoop` is the complete
chain path of the final map, never a partial one. -/
def pathFrom : Nat → List (String × Channel) → String → String → Option String
  | 0, _, _, _ => none
  | fuel + 1, cm, currentID, path =>
    match mapLookup cm currentID with
    | none => none
    | some ch =>
      if ch.parentId = "" ∨ ch.parentId = rootSentinel then
        some ("/channels" ++ ("/" ++ ch.name ++ path))
      else
        pathFrom fuel cm ch.parentId ("/" ++ ch.name ++ path)

/-- Loop state of the `for i := len(messages) - 1; ...` loop of
`processTimeline` (src/main.go lines 157-182): `newestInBatch`, the `updates`
map, and the two caches mutated through the resolver calls. -/
structure LoopAcc where
  newest : Nat
  updates : List (String × ExtensionUpdate)
  userMap : List (String × String)
  channelMap : List (String × Channel)
  deriving DecidableEq, Repr

/-- The message loop of `processTimeline`, iterating over the already
reversed message list (the upstream feed is newest-first, the Go loop walks
it backwards). `w` is the watermark read from `lastCheckTime`, which the Go
code does not modify during the loop. -/
def processLoop (fU : String → Option User) (fC : String → Option Channel)
    (fuel w : Nat) : LoopAcc → List ActivityMessage → Option LoopAcc
  | acc, [] => some acc
  | acc, msg :: rest =>
    if w < msg.createdAt then
      let newest := if acc.newest < msg.createdAt then msg.createdAt else acc.newest
      let ur := resolveUser fU acc.userMap msg.userId
      match resolveChannelPath fC fuel acc.channelMap msg.channelId with
      | none => none
      | some (path, cm') =>
        if ur.name = "" ∨ path = "" then
          processLoop fU fC fuel w ⟨newest, acc.updates, ur.userMap, cm'⟩ rest
        else
          processLoop fU fC fuel w
            ⟨newest, mapInsert acc.updates path ⟨"UPDATE", path, ur.name⟩,
              ur.userMap, cm'⟩ rest
    else
      processLoop fU fC fuel w acc rest

/-- `processTimeline` of src/main.go (lines 148-195). Returns the new global
state and the list of UPDATE messages broadcast during the publish loop
(the Go `if len(updates) > 0` guard is semantically a no-op and is folded
into the unconditional fold over the `updates` entries). -/
def processTimeline (fU : String → Option User) (fC : String → Option Channel)
    (fuel : Nat) (s : SysState) (messages : List ActivityMessage) :
    Option (SysState × List ExtensionUpdate) :=
  if messages.isEmpty then some (s, [])
  else
    match processLoop fU fC fuel s.lastCheckTime
        ⟨s.lastCheckTime, [], s.userMap, s.channelMap⟩ messages.reverse with
    | none => none
    | some acc =>
      some ({ userMap := acc.userMap, channelMap := acc.channelMap,
              lastSpeakers :=
                acc.updates.foldl (fun ls pu => mapInsert ls pu.1 pu.2.username)
                  s.lastSpeakers,
              lastCheckTime := acc.newest },
            acc.updates.map Prod.snd)

/-- Outcome of one timeline fetch in `startPolling` (src/main.go lines
118-144): a transport error, or an HTTP response with a status code and an
optionally decoded body (`none` = JSON decode error). -/
inductive PollFetch
  | transportError
  | response (status : Nat) (decoded : Option (List ActivityMessage))

/-- One iteration of the polling loop of `startPolling`: any transport error,
non-200 status or decode failure skips the tick (only a log line is emitted);
a decoded 200 response is handed to `processTimeline`. -/
def pollTick (fU : String → Option User) (fC : String → Option Channel)
    (fuel : Nat) (s : SysState) (r : PollFetch) :
    Option (SysState × List ExtensionUpdate) :=
  match r with
  | .transportError => some (s, [])
  | .response status decoded =>
    if status ≠ 200 then some (s, [])
    else
      match decoded with
      | none => some (s, [])
      | some timeline => processTimeline fU fC fuel s timeline

/-- Specification-level trace of one tick: the retained events in processing
order (oldest first), each paired with the ResolvedChange the code computes
for it, threading the same lazy-learning caches as `processLoop`. Dropped
events (stale, or unresolvable user/channel) do not appear. -/
def resolvedEvents (fU : String → Option User) (fC : String → Option Channel)
    (fuel w : Nat) :
    List (String × String) → List (String × Channel) → List ActivityMessage →
    Option (List (ActivityMessage × ExtensionUpdate) ×
            List (String × String) × List (String × Channel))
  | um, cm, [] => some ([], um, cm)
  | um, cm, msg :: rest =>
    if w < msg.createdAt then
      let ur := resolveUser fU um msg.userId
      match resolveChannelPath fC fuel cm msg.channelId with
      | none => none
      | some (path, cm') =>
        if ur.name = "" ∨ path = "" then
          resolvedEvents fU fC fuel w ur.userMap cm' rest
        else
          match resolvedEvents fU fC fuel w ur.userMap cm' rest with
          | none => none
          | some (seq, um'', cm'') =>
            some ((msg, ⟨"UPDATE", path, ur.name⟩) :: seq, um'', cm'')
    else
      resolvedEvents fU fC fuel w um cm rest

/-- The events of one batch that the tick retains, in processing order:
the reversed feed filtered by "strictly after the watermark". -/
def processedIn (w : Nat) (msgs : List ActivityMessage) : List ActivityMessage :=
  msgs.reverse.filter (fun m => w < m.createdAt)

/-- A sequence of successful ticks: folds `processTimeline` over a list of
fetched batches, collecting every event that a tick retained. -/
def runTicks (fU : String → Option User) (fC : String → Option Channel)
    (fuel : Nat) :
    SysState → List (List ActivityMessage) →
    Option (SysState × List ActivityMessage)
  | s, [] => some (s, [])
  | s, b :: bs =>
    match processTimeline fU fC fuel s b with
    | none => none
    | some (s', _) =>
      match runTicks fU fC fuel s' bs with
      | none => none
      | some (s'', evs) => some (s'', processedIn s.lastCheckTime b ++ evs)

/-- Where a concurrent `resolveUser` caller stands: before the cache check,
back from the remote fetch (holding its result), or returned. -/
inductive CallerPhase
  | start
  | fetched (res : Option User)
  | done (ret : String)
  deriving DecidableEq, Repr

/-- Shared state of `N` concurrent `resolveUser` callers for one user id:
the shared `userMap`, each caller's phase, and how many remote fetches have
been issued in total. -/
structure ConcState where
  userMap : List (String × String)
  phases : List CallerPhase
  fetchCount : Nat
  deriving DecidableEq, Repr

/-- One atomic step of caller `i` in the concurrent `resolveUser` protocol
(src/main.go lines 200-234). The two lock-protected regions of the Go code
are the atomic units: the RLock cache check (a miss is immediately followed
by the lock-free fetch, which touches no shared state), and the
Lock-protected re-check-then-write. A caller that finds a value written by
another caller in the interim discards its own fetch result. -/
def concStep (fetchU : String → Option User) (uid : String)
    (s : ConcState) (i : Nat) : ConcState :=
  match s.phases[i]? with
  | none => s
  | some ph =>
    match ph with
    | .done _ => s
    | .start =>
      match mapLookup s.userMap uid with
      | some name => { s with phases := s.phases.set i (.done name) }
      | none =>
        { s with phases := s.phases.set i (.fetched (fetchU uid)),
                 fetchCount := s.fetchCount + 1 }
    | .fetched res =>
      match mapLookup s.userMap uid with
      | some name => { s with phases := s.phases.set i (.done name) }
      | none =>
        match res with
        | none =>
          { s with userMap := mapInsert s.userMap uid "webhook",
                   phases := s.phases.set i (.done "webhook") }
        | some u =>
          { s with userMap := mapInsert s.userMap uid u.name,
                   phases := s.phases.set i (.done u.name) }

/-- Run an interleaving: the schedule lists which caller takes the next
atomic step. -/
def concRun (fetchU : String → Option User) (uid : String)
    (s : ConcState) (sched : List Nat) : ConcState :=
  sched.foldl (concStep fetchU uid) s

/-- Fresh start for `n` concurrent callers that all miss the cache. -/
def concStart (n : Nat) : ConcState :=
  ⟨[], List.replicate n CallerPhase.start, 0⟩

/-- Atomic actions of the notifier, at the granularity of the critical
sections in src/main.go: `register` (handleConnections adding the socket
under `clientsMu`), `initSend` (the StateStore snapshot under
`stateMutex.RLock` plus the INIT write), `beginTick`/`endTick`
(`processTimeline` taking and releasing `stateMutex.Lock` around the publish
loop) and `pubUpdate` (one store write plus one `broadcastToClients` call
inside that loop). -/
inductive NotifyAct
  | register (c : Nat)
  | initSend (c : Nat)
  | beginTick
  | pubUpdate (u : ExtensionUpdate)
  | endTick
  deriving DecidableEq, Repr

/-- A message delivered to a subscriber: INIT with a full StateStore
snapshot, or a single UPDATE. -/
inductive NotifyMsg
  | init (st : List (String × String))
  | update (u : ExtensionUpdate)
  deriving DecidableEq, Repr

/-- Notifier-side state: the StateStore, the registered connections and the
ordered log of every message sent, tagged with its receiver. -/
structure NotifyState where
  store : List (String × String)
  conns : List Nat
  log : List (Nat × NotifyMsg)
  deriving DecidableEq, Repr

/-- Effect of one notifier action. `pubUpdate` mirrors the publish loop body:
store write then broadcast to every currently registered connection.
`initSend` snapshots the current store into one INIT message. -/
def notifyStep (s : NotifyState) : NotifyAct → NotifyState
  | .register c =>
    { s with conns := if c ∈ s.conns then s.conns else s.conns ++ [c] }
  | .initSend c => { s with log := s.log ++ [(c, .init s.store)] }
  | .beginTick => s
  | .endTick => s
  | .pubUpdate u =>
    { s with store := mapInsert s.store u.channelPath u.username,
             log := s.log ++ s.conns.map (fun c => (c, .update u)) }

/-- Run a notifier trace. -/
def notifyRun (s : NotifyState) (tr : List NotifyAct) : NotifyState :=
  tr.foldl notifyStep s

/-- Lock feasibility of a trace: publish actions happen only between
`beginTick`/`endTick` (the poller holds `stateMutex.Lock` there), and an
`initSend` cannot happen inside that window because its snapshot needs
`stateMutex.RLock`. A `register` may happen anywhere: it only takes
`clientsMu`, which the publisher releases between individual broadcasts. -/
def wfFrom : Bool → List NotifyAct → Bool
  | _, [] => true
  | inTick, a :: rest =>
    match a with
    | .register _ => wfFrom inTick rest
    | .initSend _ => !inTick && wfFrom inTick rest
    | .beginTick => !inTick && wfFrom true rest
    | .pubUpdate _ => inTick && wfFrom inTick rest
    | .endTick => inTick && wfFrom false rest

/-- A trace is feasible when scanned from the unlocked state. -/
def wfTrace (tr : List NotifyAct) : Bool := wfFrom false tr

/-- The messages delivered to connection `c`, in delivery order. -/
def msgsTo (c : Nat) (s : NotifyState) : List NotifyMsg :=
  (s.log.filter (fun e => e.1 = c)).map Prod.snd

/-- The parent chain of `id` inside `cm` reaches the sentinel root (or an
empty parent) after exactly `n` parent hops, every hop being present in the
map. -/
inductive Rooted (cm : List (String × Channel)) : String → Nat → Prop where
  | base (id : String) (ch : Channel) :
      mapLookup cm id = some ch →
      (ch.parentId = "" ∨ ch.parentId = rootSentinel) →
      Rooted cm id 0
  | step (id : String) (ch : Channel) (n : Nat) :
      mapLookup cm id = some ch →
      ¬(ch.parentId = "" ∨ ch.parentId = rootSentinel) →
      Rooted cm ch.parentId n →
      Rooted cm id (n + 1)

/-- A fetcher that always fails (transport error / non-200 on every id). -/
def noFetchU : String → Option User := fun _ => none

/-- A channel fetcher that always fails. -/
def noFetchC : String → Option Channel := fun _ => none

/-- Concrete chain `A(parent=B) ← B(parent=root)` from the spec's example. -/
def cmAB : List (String × Channel) :=
  [("a", ⟨"a", "A", "b"⟩), ("b", ⟨"b", "B", rootSentinel⟩)]

/-- Concrete chain with a missing ancestor: `a`'s parent `x` has no entry. -/
def cmMiss : List (String × Channel) := [("a", ⟨"a", "A", "x"⟩)]

/-- A cyclic channel map: `a`'s parent is `b`, `b`'s parent is `a`. -/
def cmCyc : List (String × Channel) :=
  [("a", ⟨"a", "A", "b"⟩), ("b", ⟨"b", "B", "a"⟩)]

/-- The claim C7 asserts that a cycle makes resolution fail "for that lookup
only rather than looping forever"; this proposition states what the code
actually does on the cyclic map `cmCyc`: the loop body never returns, no
matter how many iterations it is allowed. -/
def cycleDiverges : Prop :=
  ∀ (fuel : Nat) (acc : String), pathLoop noFetchC fuel cmCyc "a" acc = none

/-- Well-formedness of the `updates` map built during one tick: keys are
distinct, and every entry is an UPDATE message keyed by its own non-empty
channel path. -/
def GoodUpdates (m : List (String × ExtensionUpdate)) : Prop :=
  (m.map Prod.fst).Nodup ∧
  ∀ e ∈ m, e.2.channelPath = e.1 ∧ e.2.channelPath ≠ "" ∧ e.2.type = "UPDATE"

/-- Invariant of the concurrent `resolveUser` protocol: every caller that has
returned got exactly the value currently cached for the id. -/
def ConcInv (uid : String) (s : ConcState) : Prop :=
  ∀ (i : Nat) (r : String), s.phases[i]? = some (.done r) →
    mapLookup s.userMap uid = some r

/-- Warm user cache for the end-to-end scenario of §8 of the spec. -/
def umWarm : List (String × String) := [("u_alice", "alice"), ("u_bob", "bob")]

/-- Warm channel cache: the single root-level channel `general`. -/
def cmGen : List (String × Channel) := [("c_general", ⟨"c_general", "general", ""⟩)]

/-- Scenario event: alice speaks in `general` at `t = 1`. -/
def msgAlice : ActivityMessage := ⟨"m1", "u_alice", "c_general", "", 1⟩

/-- Scenario event: bob speaks in `general` at `t = 2`. -/
def msgBob : ActivityMessage := ⟨"m2", "u_bob", "c_general", "", 2⟩

/-- Scenario start state: warm caches, empty StateStore, watermark `0`. -/
def sGen : SysState := ⟨umWarm, cmGen, [], 0⟩

/-- A user fetcher that always succeeds with the name `alice`. -/
def fetchAlice : String → Option User := fun _ => some ⟨"u1", "alice", false⟩

/-- UPDATE message used in the notifier traces. -/
def updAlice : ExtensionUpdate := ⟨"UPDATE", "/channels/general", "alice"⟩

/-- UPDATE message used in the notifier traces. -/
def updBob : ExtensionUpdate := ⟨"UPDATE", "/channels/general", "bob"⟩

/-- Feasible notifier trace in which connection `0` registers while a publish
batch holds the state lock: the poller has already published `updAlice`
(so the StateStore is non-empty), `0` registers, the poller publishes
`updBob` to all registered connections — including `0` — and only after the
batch releases the lock does `0`'s handler snapshot the store and send INIT. -/
def raceTrace : List NotifyAct :=
  [.beginTick, .pubUpdate updAlice, .register 0, .pubUpdate updBob, .endTick,
   .initSend 0]

/-- Empty notifier start state. -/
def notify0 : NotifyState := ⟨[], [], []⟩

/-- Scenario end state: StateStore holds bob for `/channels/general`,
watermark advanced to 2, caches unchanged. -/
def sGenAfter : SysState := ⟨umWarm, cmGen, [("/channels/general", "bob")], 2⟩

theorem mapLookup_insert_self {α : Type} (m : List (String × α)) (k : String)
    (v : α) : mapLookup (mapInsert m k v) k = some v := by
  induction m with
  | nil => simp [mapInsert, mapLookup]
  | cons e rest ih =>
    obtain ⟨k', v'⟩ := e
    by_cases h : k' = k
    · simp [mapInsert, h, mapLookup]
    · simp [mapInsert, h, mapLookup, ih]

theorem mapLookup_insert_ne {α : Type} (m : List (String × α)) (k k' : String)
    (v : α) (h : k' ≠ k) :
    mapLookup (mapInsert m k v) k' = mapLookup m k' := by
  induction m with
  | nil => simp [mapInsert, mapLookup, Ne.symm h]
  | cons e rest ih =>
    obtain ⟨k₀, v₀⟩ := e
    by_cases hk : k₀ = k
    · subst hk
      simp [mapInsert, mapLookup, Ne.symm h]
    · simp only [mapInsert, if_neg hk, mapLookup]
      by_cases h₀ : k₀ = k'
      · simp [h₀]
      · simp [h₀, ih]

theorem mem_mapInsert {α : Type} (m : List (String × α)) (k : String) (v : α)
    (e : String × α) (he : e ∈ mapInsert m k v) : e = (k, v) ∨ e ∈ m := by
  induction m with
  | nil => simpa [mapInsert] using he
  | cons e₀ rest ih =>
    obtain ⟨k₀, v₀⟩ := e₀
    by_cases hk : k₀ = k
    · rw [mapInsert, if_pos hk] at he
      rcases List.mem_cons.mp he with h | h
      · exact Or.inl h
      · exact Or.inr (List.mem_cons_of_mem _ h)
    · rw [mapInsert, if_neg hk] at he
      rcases List.mem_cons.mp he with h | h
      · exact Or.inr (h ▸ List.mem_cons_self _ _)
      · rcases ih h with h' | h'
        · exact Or.inl h'
        · exact Or.inr (List.mem_cons_of_mem _ h')

theorem nodup_keys_mapInsert {α : Type} (m : List (String × α)) (k : String)
    (v : α) (h : (m.map Prod.fst).Nodup) :
    ((mapInsert m k v).map Prod.fst).Nodup := by
  induction m with
  | nil => simp [mapInsert]
  | cons e₀ rest ih =>
    obtain ⟨k₀, v₀⟩ := e₀
    by_cases hk : k₀ = k
    · subst hk
      simpa [mapInsert] using h
    · rw [mapInsert, if_neg hk]
      simp only [List.map_cons, List.nodup_cons] at h ⊢
      refine ⟨?_, ih h.2⟩
      intro hmem
      rcases List.mem_map.mp hmem with ⟨e, he, hfst⟩
      rcases mem_mapInsert rest k v e he with h' | h'
      · exact hk (by rw [← hfst, h'])
      · exact h.1 (List.mem_map.mpr ⟨e, h', hfst⟩)

theorem mapLookup_eq_some_mem {α : Type} (m : List (String × α)) (p : String)
    (v : α) (h : mapLookup m p = some v) : (p, v) ∈ m := by
  induction m with
  | nil => simp [mapLookup] at h
  | cons e₀ rest ih =>
    obtain ⟨k₀, v₀⟩ := e₀
    by_cases hk : k₀ = p
    · rw [mapLookup, if_pos hk] at h
      injection h with h
      subst hk
      subst h
      exact List.mem_cons_self _ _
    · rw [mapLookup, if_neg hk] at h
      exact List.mem_cons_of_mem _ (ih h)

theorem filter_key_nil {α : Type} (m : List (String × α)) (p : String)
    (h : p ∉ m.map Prod.fst) : m.filter (fun e => e.1 = p) = [] := by
  refine List.filter_eq_nil_iff.mpr ?_
  intro e he
  simp only [decide_eq_true_eq]
  intro hk
  exact h (List.mem_map.mpr ⟨e, he, hk⟩)

theorem filter_key_singleton {α : Type} (m : List (String × α)) (p : String)
    (v : α) (hnd : (m.map Prod.fst).Nodup) (h : mapLookup m p = some v) :
    m.filter (fun e => e.1 = p) = [(p, v)] := by
  induction m with
  | nil => simp [mapLookup] at h
  | cons e₀ rest ih =>
    obtain ⟨k₀, v₀⟩ := e₀
    simp only [List.map_cons, List.nodup_cons] at hnd
    by_cases hk : k₀ = p
    · rw [mapLookup, if_pos hk] at h
      injection h with h
      subst hk h
      rw [List.filter_cons, if_pos (by simp)]
      rw [filter_key_nil rest k₀ hnd.1]
    · rw [mapLookup, if_neg hk] at h
      rw [List.filter_cons, if_neg (by simp [hk])]
      exact ih hnd.2 h

theorem getLast?_cons_of_ne {α : Type} (a : α) (l : List α) (h : l ≠ []) :
    (a :: l).getLast? = l.getLast? := by
  cases l with
  | nil => exact absurd rfl h
  | cons b t => exact List.getLast?_cons_cons

theorem mapLookup_foldl_mapInsert {β γ : Type} (key : γ → String) (val : γ → β) :
    ∀ (us : List γ) (m0 : List (String × β)) (p : String),
      mapLookup (us.foldl (fun m u => mapInsert m (key u) (val u)) m0) p =
        ((us.filter (fun u => key u = p)).getLast?).elim (mapLookup m0 p)
          (fun u => some (val u)) := by
  intro us
  induction us with
  | nil => intro m0 p; simp
  | cons u us ih =>
    intro m0 p
    rw [List.foldl_cons, ih]
    by_cases h : key u = p
    · rw [List.filter_cons, if_pos (by simp [h])]
      cases hfl : (us.filter (fun x => key x = p)).getLast? with
      | none =>
        have hnil : us.filter (fun x => key x = p) = [] :=
          List.getLast?_eq_none_iff.mp hfl
        rw [hnil]
        subst h
        simp [mapLookup_insert_self]
      | some w =>
        have hne : us.filter (fun x => key x = p) ≠ [] := by
          intro hc
          rw [hc] at hfl
          simp at hfl
        rw [getLast?_cons_of_ne u _ hne, hfl]
        rfl
    · rw [List.filter_cons, if_neg (by simp [h])]
      cases hfl : (us.filter (fun x => key x = p)).getLast? with
      | none => simp [mapLookup_insert_ne m0 (key u) p (val u) (Ne.symm h)]
      | some w => rfl

theorem le_foldl_max : ∀ (l : List Nat) (a b : Nat), a ≤ b → a ≤ l.foldl max b
  | [], _, _, h => h
  | c :: l, a, b, h =>
    le_foldl_max l a (max b c) (le_trans h (le_max_left b c))

theorem foldl_max_choice :
    ∀ (l : List Nat) (a : Nat), l.foldl max a = a ∨ l.foldl max a ∈ l
  | [], _ => Or.inl rfl
  | c :: l, a => by
    rw [List.foldl_cons]
    rcases foldl_max_choice l (max a c) with h | h
    · rw [h]
      rcases max_choice a c with h' | h'
      · exact Or.inl h'
      · exact Or.inr (by rw [h']; exact List.mem_cons_self _ _)
    · exact Or.inr (List.mem_cons_of_mem _ h)

theorem mem_le_foldl_max :
    ∀ (l : List Nat) (a : Nat), ∀ x ∈ l, x ≤ l.foldl max a
  | c :: l, a, x, hx => by
    rw [List.foldl_cons]
    rcases List.mem_cons.mp hx with rfl | hx'
    · exact le_foldl_max l x (max a x) (le_max_right a x)
    · exact mem_le_foldl_max l (max a c) x hx'

theorem pathLoop_submap (fC : String → Option Channel) :
    ∀ (fuel : Nat) (cm : List (String × Channel)) (cur acc r : String)
      (cm' : List (String × Channel)),
      pathLoop fC fuel cm cur acc = some (r, cm') →
      ∀ (k : String) (v : Channel),
        mapLookup cm k = some v → mapLookup cm' k = some v := by
  intro fuel
  induction fuel with
  | zero => intro cm cur acc r cm' h; simp [pathLoop] at h
  | succ n ih =>
    intro cm cur acc r cm' h k v hk
    simp only [pathLoop] at h
    cases hl : mapLookup cm cur with
    | some ch =>
      simp only [hl] at h
      by_cases hroot : ch.parentId = "" ∨ ch.parentId = rootSentinel
      · rw [if_pos hroot] at h
        injection h with h
        injection h with h1 h2
        subst h2
        exact hk
      · rw [if_neg hroot] at h
        exact ih cm ch.parentId _ r cm' h k v hk
    | none =>
      simp only [hl] at h
      cases hf : fC cur with
      | none =>
        simp only [hf] at h
        injection h with h
        injection h with h1 h2
        subst h2
        exact hk
      | some ch =>
        simp only [hf] at h
        have hkne : k ≠ cur := by
          intro he
          rw [he, hl] at hk
          cases hk
        have hk2 : mapLookup (mapInsert cm cur ch) k = some v := by
          rw [mapLookup_insert_ne cm cur k ch hkne]
          exact hk
        by_cases hroot : ch.parentId = "" ∨ ch.parentId = rootSentinel
        · rw [if_pos hroot] at h
          injection h with h
          injection h with h1 h2
          subst h2
          exact hk2
        · rw [if_neg hroot] at h
          exact ih _ ch.parentId _ r cm' h k v hk2

theorem pathLoop_complete (fC : String → Option Channel) :
    ∀ (fuel : Nat) (cm : List (String × Channel)) (cur acc r : String)
      (cm' : List (String × Channel)),
      pathLoop fC fuel cm cur acc = some (r, cm') → r ≠ "" →
      pathFrom fuel cm' cur acc = some r := by
  intro fuel
  induction fuel with
  | zero => intro cm cur acc r cm' h; simp [pathLoop] at h
  | succ n ih =>
    intro cm cur acc r cm' h hr
    simp only [pathLoop] at h
    cases hl : mapLookup cm cur with
    | some ch =>
      simp only [hl] at h
      by_cases hroot : ch.parentId = "" ∨ ch.parentId = rootSentinel
      · rw [if_pos hroot] at h
        injection h with h
        injection h with h1 h2
        subst h2
        subst h1
        simp only [pathFrom, hl]
        rw [if_pos hroot]
      · rw [if_neg hroot] at h
        have hl' : mapLookup cm' cur = some ch :=
          pathLoop_submap fC n cm ch.parentId _ r cm' h cur ch hl
        simp only [pathFrom, hl']
        rw [if_neg hroot]
        exact ih cm ch.parentId _ r cm' h hr
    | none =>
      simp only [hl] at h
      cases hf : fC cur with
      | none =>
        simp only [hf] at h
        injection h with h
        injection h with h1 h2
        exact absurd h1.symm hr
      | some ch =>
        simp only [hf] at h
        by_cases hroot : ch.parentId = "" ∨ ch.parentId = rootSentinel
        · rw [if_pos hroot] at h
          injection h with h
          injection h with h1 h2
          subst h2
          subst h1
          simp only [pathFrom, mapLookup_insert_self]
          rw [if_pos hroot]
        · rw [if_neg hroot] at h
          have hl' : mapLookup cm' cur = some ch :=
            pathLoop_submap fC n (mapInsert cm cur ch) ch.parentId _ r cm' h cur ch
              (mapLookup_insert_self cm cur ch)
          simp only [pathFrom, hl']
          rw [if_neg hroot]
          exact ih _ ch.parentId _ r cm' h hr

theorem pathLoop_rooted (fC : String → Option Channel)
    (cm : List (String × Channel)) (id : String) (n : Nat)
    (h : Rooted cm id n) :
    ∀ acc : String, ∃ r, ∀ fuel, n + 1 ≤ fuel →
      pathLoop fC fuel cm id acc = some r := by
  induction h with
  | base id ch hl hroot =>
    intro acc
    refine ⟨("/channels" ++ ("/" ++ ch.name ++ acc), cm), ?_⟩
    intro fuel hf
    cases fuel with
    | zero => omega
    | succ m =>
      simp only [pathLoop, hl]
      rw [if_pos hroot]
  | step id ch n hl hroot hrec ih =>
    intro acc
    obtain ⟨r, hr⟩ := ih ("/" ++ ch.name ++ acc)
    refine ⟨r, ?_⟩
    intro fuel hf
    cases fuel with
    | zero => omega
    | succ m =>
      simp only [pathLoop, hl]
      rw [if_neg hroot]
      exact hr m (by omega)

theorem pathLoop_cyc_none :
    ∀ (fuel : Nat) (cur acc : String), (cur = "a" ∨ cur = "b") →
      pathLoop noFetchC fuel cmCyc cur acc = none := by
  intro fuel
  induction fuel with
  | zero => intro cur acc h; rfl
  | succ n ih =>
    intro cur acc h
    rcases h with rfl | rfl
    · have hl : mapLookup cmCyc "a" = some ⟨"a", "A", "b"⟩ := rfl
      simp only [pathLoop, hl]
      rw [if_neg (by decide)]
      exact ih "b" _ (Or.inr rfl)
    · have hl : mapLookup cmCyc "b" = some ⟨"b", "B", "a"⟩ := rfl
      simp only [pathLoop, hl]
      rw [if_neg (by decide)]
      exact ih "a" _ (Or.inl rfl)

theorem if_lt_eq_max (a c : Nat) : (if a < c then c else a) = max a c := by
  by_cases h : a < c
  · rw [if_pos h]
    exact (Nat.max_eq_right (le_of_lt h)).symm
  · rw [if_neg h]
    exact (Nat.max_eq_left (le_of_not_lt h)).symm

theorem processLoop_filter (fU : String → Option User)
    (fC : String → Option Channel) (fuel w : Nat) :
    ∀ (l : List ActivityMessage) (acc : LoopAcc),
      processLoop fU fC fuel w acc l =
        processLoop fU fC fuel w acc (l.filter (fun m => w < m.createdAt)) := by
  intro l
  induction l with
  | nil => intro acc; rfl
  | cons msg rest ih =>
    intro acc
    by_cases h : w < msg.createdAt
    · rw [List.filter_cons, if_pos (by simpa using h)]
      simp only [processLoop]
      rw [if_pos h, if_pos h]
      cases hm : resolveChannelPath fC fuel acc.channelMap msg.channelId with
      | none => rfl
      | some pc =>
        obtain ⟨path, cm'⟩ := pc
        dsimp only
        by_cases hd : (resolveUser fU acc.userMap msg.userId).name = "" ∨ path = ""
        · rw [if_pos hd, if_pos hd]
          exact ih _
        · rw [if_neg hd, if_neg hd]
          exact ih _
    · rw [List.filter_cons, if_neg (by simpa using h)]
      simp only [processLoop]
      rw [if_neg h]
      exact ih acc

theorem processLoop_newest (fU : String → Option User)
    (fC : String → Option Channel) (fuel w : Nat) :
    ∀ (l : List ActivityMessage) (acc acc' : LoopAcc),
      processLoop fU fC fuel w acc l = some acc' →
      acc'.newest = (l.filter (fun m => w < m.createdAt)).foldl
        (fun a m => max a m.createdAt) acc.newest := by
  intro l
  induction l with
  | nil =>
    intro acc acc' h
    simp only [processLoop] at h
    injection h with h
    subst h
    rfl
  | cons msg rest ih =>
    intro acc acc' h
    simp only [processLoop] at h
    by_cases hw : w < msg.createdAt
    · rw [if_pos hw] at h
      rw [List.filter_cons, if_pos (by simpa using hw), List.foldl_cons]
      cases hm : resolveChannelPath fC fuel acc.channelMap msg.channelId with
      | none => simp [hm] at h
      | some pc =>
        obtain ⟨path, cm'⟩ := pc
        simp only [hm] at h
        by_cases hd : (resolveUser fU acc.userMap msg.userId).name = "" ∨ path = ""
        · rw [if_pos hd] at h
          rw [ih _ acc' h]
          congr 1
          exact if_lt_eq_max acc.newest msg.createdAt
        · rw [if_neg hd] at h
          rw [ih _ acc' h]
          congr 1
          exact if_lt_eq_max acc.newest msg.createdAt
    · rw [if_neg hw] at h
      rw [List.filter_cons, if_neg (by simpa using hw)]
      exact ih acc acc' h

theorem processLoop_updates_good (fU : String → Option User)
    (fC : String → Option Channel) (fuel w : Nat) :
    ∀ (l : List ActivityMessage) (acc acc' : LoopAcc),
      processLoop fU fC fuel w acc l = some acc' →
      GoodUpdates acc.updates → GoodUpdates acc'.updates := by
  intro l
  induction l with
  | nil =>
    intro acc acc' h hg
    simp only [processLoop] at h
    injection h with h
    subst h
    exact hg
  | cons msg rest ih =>
    intro acc acc' h hg
    simp only [processLoop] at h
    by_cases hw : w < msg.createdAt
    · rw [if_pos hw] at h
      cases hm : resolveChannelPath fC fuel acc.channelMap msg.channelId with
      | none => simp [hm] at h
      | some pc =>
        obtain ⟨path, cm'⟩ := pc
        simp only [hm] at h
        by_cases hd : (resolveUser fU acc.userMap msg.userId).name = "" ∨ path = ""
        · rw [if_pos hd] at h
          exact ih _ acc' h hg
        · rw [if_neg hd] at h
          refine ih _ acc' h ⟨nodup_keys_mapInsert _ _ _ hg.1, ?_⟩
          intro e he
          rcases mem_mapInsert _ _ _ e he with h' | h'
          · subst h'
            push_neg at hd
            exact ⟨rfl, hd.2, rfl⟩
          · exact hg.2 e h'
    · rw [if_neg hw] at h
      exact ih acc acc' h hg

theorem processLoop_resolved (fU : String → Option User)
    (fC : String → Option Channel) (fuel w : Nat) :
    ∀ (l : List ActivityMessage) (acc acc' : LoopAcc),
      processLoop fU fC fuel w acc l = some acc' →
      ∃ seq, resolvedEvents fU fC fuel w acc.userMap acc.channelMap l =
          some (seq, acc'.userMap, acc'.channelMap)
        ∧ acc'.updates =
            seq.foldl (fun m mu => mapInsert m mu.2.channelPath mu.2) acc.updates
        ∧ (seq.map Prod.fst).Sublist l := by
  intro l
  induction l with
  | nil =>
    intro acc acc' h
    simp only [processLoop] at h
    injection h with h
    subst h
    exact ⟨[], rfl, rfl, List.nil_sublist _⟩
  | cons msg rest ih =>
    intro acc acc' h
    simp only [processLoop] at h
    by_cases hw : w < msg.createdAt
    · rw [if_pos hw] at h
      cases hm : resolveChannelPath fC fuel acc.channelMap msg.channelId with
      | none => simp [hm] at h
      | some pc =>
        obtain ⟨path, cm'⟩ := pc
        simp only [hm] at h
        by_cases hd : (resolveUser fU acc.userMap msg.userId).name = "" ∨ path = ""
        · rw [if_pos hd] at h
          obtain ⟨seq, hre, hupd, hsub⟩ := ih _ acc' h
          refine ⟨seq, ?_, hupd, hsub.cons _⟩
          simp only [resolvedEvents]
          rw [if_pos hw]
          simp only [hm]
          rw [if_pos hd]
          exact hre
        · rw [if_neg hd] at h
          obtain ⟨seq, hre, hupd, hsub⟩ := ih _ acc' h
          refine ⟨(msg, ⟨"UPDATE", path,
            (resolveUser fU acc.userMap msg.userId).name⟩) :: seq, ?_, ?_, ?_⟩
          · simp only [resolvedEvents]
            rw [if_pos hw]
            simp only [hm]
            rw [if_neg hd, hre]
          · rw [List.foldl_cons]
            exact hupd
          · exact List.Sublist.cons₂ _ hsub
    · rw [if_neg hw] at h
      obtain ⟨seq, hre, hupd, hsub⟩ := ih acc acc' h
      refine ⟨seq, ?_, hupd, hsub.cons _⟩
      simp only [resolvedEvents]
      rw [if_neg hw]
      exact hre

theorem processTimeline_filter_eq (fU : String → Option User)
    (fC : String → Option Channel) (fuel : Nat) (s : SysState)
    (msgs : List ActivityMessage) :
    processTimeline fU fC fuel s msgs =
      processTimeline fU fC fuel s
        (msgs.filter (fun m => s.lastCheckTime < m.createdAt)) := by
  by_cases h0 : msgs = []
  · subst h0
    rfl
  · have h0' : msgs.isEmpty = false := by
      cases msgs with
      | nil => exact absurd rfl h0
      | cons a t => rfl
    by_cases h1 : msgs.filter (fun m => s.lastCheckTime < m.createdAt) = []
    · simp only [processTimeline]
      rw [if_neg (by simp [h0']), if_pos (by simp [h1])]
      rw [processLoop_filter fU fC fuel s.lastCheckTime msgs.reverse,
        List.filter_reverse, h1]
      rfl
    · have h1' : (msgs.filter (fun m => s.lastCheckTime < m.createdAt)).isEmpty
        = false := by
        cases hc : msgs.filter (fun m => s.lastCheckTime < m.createdAt) with
        | nil => exact absurd hc h1
        | cons a t => rfl
      simp only [processTimeline]
      rw [if_neg (by simp [h0']), if_neg (by simp [h1'])]
      rw [processLoop_filter fU fC fuel s.lastCheckTime msgs.reverse,
        List.filter_reverse]

theorem processTimeline_watermark (fU : String → Option User)
    (fC : String → Option Channel) (fuel : Nat) (s : SysState)
    (msgs : List ActivityMessage) (s' : SysState) (out : List ExtensionUpdate)
    (h : processTimeline fU fC fuel s msgs = some (s', out)) :
    s'.lastCheckTime = (processedIn s.lastCheckTime msgs).foldl
      (fun a m => max a m.createdAt) s.lastCheckTime := by
  by_cases h0 : msgs = []
  · subst h0
    have h' : (some (s, ([] : List ExtensionUpdate)) :
        Option (SysState × List ExtensionUpdate)) = some (s', out) := h
    injection h' with h'
    injection h' with h1 h2
    subst h1
    rfl
  · have h0' : msgs.isEmpty = false := by
      cases msgs with
      | nil => exact absurd rfl h0
      | cons a t => rfl
    simp only [processTimeline] at h
    rw [if_neg (by simp [h0'])] at h
    cases hpl : processLoop fU fC fuel s.lastCheckTime
        ⟨s.lastCheckTime, [], s.userMap, s.channelMap⟩ msgs.reverse with
    | none => simp [hpl] at h
    | some acc =>
      simp only [hpl] at h
      injection h with h
      injection h with h1 h2
      rw [← h1]
      exact processLoop_newest fU fC fuel s.lastCheckTime msgs.reverse _ acc hpl

theorem processTimeline_watermark_mono (fU : String → Option User)
    (fC : String → Option Channel) (fuel : Nat) (s : SysState)
    (msgs : List ActivityMessage) (s' : SysState) (out : List ExtensionUpdate)
    (h : processTimeline fU fC fuel s msgs = some (s', out)) :
    s.lastCheckTime ≤ s'.lastCheckTime := by
  rw [processTimeline_watermark fU fC fuel s msgs s' out h]
  have hle := le_foldl_max
    ((processedIn s.lastCheckTime msgs).map (fun m => m.createdAt))
    s.lastCheckTime s.lastCheckTime le_rfl
  rwa [List.foldl_map] at hle

theorem runTicks_aux (fU : String → Option User)
    (fC : String → Option Channel) (fuel : Nat) :
    ∀ (bs : List (List ActivityMessage)) (s s' : SysState)
      (evs : List ActivityMessage),
      runTicks fU fC fuel s bs = some (s', evs) →
      s.lastCheckTime ≤ s'.lastCheckTime ∧
      s'.lastCheckTime = evs.foldl (fun a m => max a m.createdAt) s.lastCheckTime ∧
      (∀ m ∈ evs, s.lastCheckTime < m.createdAt) := by
  intro bs
  induction bs with
  | nil =>
    intro s s' evs h
    simp only [runTicks] at h
    injection h with h
    injection h with h1 h2
    subst h1
    subst h2
    exact ⟨le_rfl, rfl, by simp⟩
  | cons b bs ih =>
    intro s s' evs h
    simp only [runTicks] at h
    cases hpt : processTimeline fU fC fuel s b with
    | none => simp [hpt] at h
    | some p1 =>
      obtain ⟨s1, out1⟩ := p1
      simp only [hpt] at h
      cases hrt : runTicks fU fC fuel s1 bs with
      | none => simp [hrt] at h
      | some p2 =>
        obtain ⟨s2, evs2⟩ := p2
        simp only [hrt] at h
        injection h with h
        injection h with h1 h2
        subst h1
        subst h2
        obtain ⟨ih1, ih2, ih3⟩ := ih s1 s2 evs2 hrt
        have hw := processTimeline_watermark fU fC fuel s b s1 out1 hpt
        have hmono := processTimeline_watermark_mono fU fC fuel s b s1 out1 hpt
        refine ⟨le_trans hmono ih1, ?_, ?_⟩
        · rw [List.foldl_append, ← hw, ih2]
        · intro m hm
          rcases List.mem_append.mp hm with hm1 | hm2
          · simp only [processedIn] at hm1
            exact of_decide_eq_true (List.mem_filter.mp hm1).2
          · exact lt_of_le_of_lt hmono (ih3 m hm2)

theorem getElem?_set_done {l : List CallerPhase} {j i : Nat} {a : CallerPhase}
    {r : String} (h : (l.set j a)[i]? = some (.done r)) :
    (j = i ∧ j < l.length ∧ a = .done r) ∨ (j ≠ i ∧ l[i]? = some (.done r)) := by
  rw [List.getElem?_set] at h
  by_cases hij : j = i
  · rw [if_pos hij] at h
    by_cases hlen : j < l.length
    · rw [if_pos hlen] at h
      injection h with h
      exact Or.inl ⟨hij, hlen, h⟩
    · rw [if_neg hlen] at h
      exact Option.noConfusion h
  · rw [if_neg hij] at h
    exact Or.inr ⟨hij, h⟩

theorem concStep_inv (fetchU : String → Option User) (uid : String)
    (s : ConcState) (j : Nat) (hinv : ConcInv uid s) :
    ConcInv uid (concStep fetchU uid s j) := by
  intro i r hi
  simp only [concStep] at hi ⊢
  cases hj : s.phases[j]? with
  | none =>
    simp only [hj] at hi ⊢
    exact hinv i r hi
  | some ph =>
    cases ph with
    | done rr =>
      simp only [hj] at hi ⊢
      exact hinv i r hi
    | start =>
      simp only [hj] at hi ⊢
      cases hl : mapLookup s.userMap uid with
      | some name =>
        simp only [hl] at hi ⊢
        rcases getElem?_set_done hi with ⟨_, _, ha⟩ | ⟨_, hold⟩
        · injection ha with ha
          subst ha
          rfl
        · have hv := hinv i r hold
          rw [hl] at hv
          exact hv
      | none =>
        simp only [hl] at hi ⊢
        rcases getElem?_set_done hi with ⟨_, _, ha⟩ | ⟨_, hold⟩
        · exact CallerPhase.noConfusion ha
        · have hv := hinv i r hold
          rw [hl] at hv
          exact hv
    | fetched res =>
      simp only [hj] at hi ⊢
      cases hl : mapLookup s.userMap uid with
      | some name =>
        simp only [hl] at hi ⊢
        rcases getElem?_set_done hi with ⟨_, _, ha⟩ | ⟨_, hold⟩
        · injection ha with ha
          subst ha
          rfl
        · have hv := hinv i r hold
          rw [hl] at hv
          exact hv
      | none =>
        cases res with
        | none =>
          simp only [hl] at hi ⊢
          rcases getElem?_set_done hi with ⟨_, _, ha⟩ | ⟨_, hold⟩
          · injection ha with ha
            subst ha
            exact mapLookup_insert_self _ _ _
          · have := hinv i r hold
            rw [hl] at this
            exact Option.noConfusion this
        | some u =>
          simp only [hl] at hi ⊢
          rcases getElem?_set_done hi with ⟨_, _, ha⟩ | ⟨_, hold⟩
          · injection ha with ha
            subst ha
            exact mapLookup_insert_self _ _ _
          · have := hinv i r hold
            rw [hl] at this
            exact Option.noConfusion this

theorem concRun_inv (fetchU : String → Option User) (uid : String) :
    ∀ (sched : List Nat) (s : ConcState), ConcInv uid s →
      ConcInv uid (concRun fetchU uid s sched)
  | [], _, h => h
  | j :: sched, s, h =>
    concRun_inv fetchU uid sched (concStep fetchU uid s j)
      (concStep_inv fetchU uid s j h)

theorem concStart_inv (uid : String) (n : Nat) : ConcInv uid (concStart n) := by
  intro i r hi
  simp only [concStart] at hi
  rw [List.getElem?_replicate] at hi
  by_cases h : i < n
  · rw [if_pos h] at hi
    injection hi with hi
    exact CallerPhase.noConfusion hi
  · rw [if_neg h] at hi
    exact Option.noConfusion hi

theorem processTimeline_shape (fU : String → Option User)
    (fC : String → Option Channel) (fuel : Nat) (s : SysState)
    (msgs : List ActivityMessage) (s' : SysState) (out : List ExtensionUpdate)
    (h : processTimeline fU fC fuel s msgs = some (s', out)) :
    ∃ acc : LoopAcc,
      processLoop fU fC fuel s.lastCheckTime
        ⟨s.lastCheckTime, [], s.userMap, s.channelMap⟩ msgs.reverse = some acc ∧
      out = acc.updates.map Prod.snd ∧
      s'.lastSpeakers = acc.updates.foldl
        (fun ls pu => mapInsert ls pu.1 pu.2.username) s.lastSpeakers ∧
      GoodUpdates acc.updates := by
  have hgood0 : GoodUpdates ([] : List (String × ExtensionUpdate)) := by
    constructor
    · simp
    · intro e he
      exact absurd he (List.not_mem_nil e)
  by_cases h0 : msgs = []
  · subst h0
    have h' : (some (s, ([] : List ExtensionUpdate)) :
        Option (SysState × List ExtensionUpdate)) = some (s', out) := h
    injection h' with h'
    injection h' with h1 h2
    subst h1
    subst h2
    exact ⟨⟨s.lastCheckTime, [], s.userMap, s.channelMap⟩, rfl, rfl, rfl, hgood0⟩
  · have h0' : msgs.isEmpty = false := by
      cases msgs with
      | nil => exact absurd rfl h0
      | cons a t => rfl
    simp only [processTimeline] at h
    rw [if_neg (by simp [h0'])] at h
    cases hpl : processLoop fU fC fuel s.lastCheckTime
        ⟨s.lastCheckTime, [], s.userMap, s.channelMap⟩ msgs.reverse with
    | none => simp [hpl] at h
    | some acc =>
      simp only [hpl] at h
      injection h with h
      injection h with h1 h2
      refine ⟨acc, rfl, h2.symm, ?_,
        processLoop_updates_good fU fC fuel s.lastCheckTime msgs.reverse _ acc
          hpl hgood0⟩
      rw [← h1]

/-- C3: a user id whose single-entity fetch fails resolves to the fallback
pseudo-identity "webhook": the first call issues one fetch and stores
"webhook" for the id, and every subsequent call that finds "webhook" cached
returns "webhook" without issuing another fetch, whatever the fetcher would
now answer. -/
theorem resolveUser_webhook_fallback (fetchU : String → Option User)
    (um : List (String × String)) (uid : String)
    (hmiss : mapLookup um uid = none) (hfail : fetchU uid = none) :
    resolveUser fetchU um uid = ⟨"webhook", mapInsert um uid "webhook", true⟩ ∧
    mapLookup (mapInsert um uid "webhook") uid = some "webhook" ∧
    (∀ (fetchU' : String → Option User) (um' : List (String × String)),
      mapLookup um' uid = some "webhook" →
      resolveUser fetchU' um' uid = ⟨"webhook", um', false⟩) := by
  refine ⟨?_, mapLookup_insert_self um uid "webhook", ?_⟩
  · simp only [resolveUser, hmiss, hfail]
  · intro fetchU' um' h
    simp only [resolveUser, h]

/-- C5: an event whose `createdAt` is not strictly after the current
Watermark contributes nothing to the tick: processing any batch is the same
as processing the batch with all such events removed — identical new state
(Watermark, StateStore, caches) and identical broadcast list. -/
theorem processTimeline_discards_stale (fU : String → Option User)
    (fC : String → Option Channel) (fuel : Nat) (s : SysState)
    (msgs : List ActivityMessage) :
    processTimeline fU fC fuel s msgs =
      processTimeline fU fC fuel s
        (msgs.filter (fun m => s.lastCheckTime < m.createdAt)) :=
  processTimeline_filter_eq fU fC fuel s msgs

/-- C10: a batch that is empty or contains no event strictly after the
current Watermark leaves the state exactly unchanged (the Watermark neither
regresses nor advances, the StateStore is untouched) and broadcasts
nothing. -/
theorem processTimeline_frame (fU : String → Option User)
    (fC : String → Option Channel) (fuel : Nat) (s : SysState)
    (msgs : List ActivityMessage)
    (h : msgs.filter (fun m => s.lastCheckTime < m.createdAt) = []) :
    processTimeline fU fC fuel s msgs = some (s, []) := by
  rw [processTimeline_filter_eq, h]
  rfl

/-- C6: a transport error, a non-200 response, or a JSON decode error during
the timeline fetch skips the tick entirely: the Watermark, StateStore and
caches are unchanged and no message is broadcast. -/
theorem pollTick_error_skips (fU : String → Option User)
    (fC : String → Option Channel) (fuel : Nat) (s : SysState) :
    pollTick fU fC fuel s .transportError = some (s, []) ∧
    (∀ (status : Nat) (d : Option (List ActivityMessage)), status ≠ 200 →
      pollTick fU fC fuel s (.response status d) = some (s, [])) ∧
    pollTick fU fC fuel s (.response 200 none) = some (s, []) := by
  refine ⟨rfl, ?_, rfl⟩
  intro status d h
  simp only [pollTick]
  rw [if_pos h]

/-- C2: across every sequence of successful ticks the Watermark never
decreases; after the sequence it equals the one-shot max-fold of the
`createdAt` of every event retained by some tick (each tick filters with the
watermark it started with and writes the new value once, after the batch);
every retained event lies strictly above the starting watermark; and when at
least one event was processed the Watermark equals the largest `createdAt`
among all processed events. -/
theorem runTicks_watermark (fU : String → Option User)
    (fC : String → Option Channel) (fuel : Nat)
    (bs : List (List ActivityMessage)) (s s' : SysState)
    (evs : List ActivityMessage)
    (hrun : runTicks fU fC fuel s bs = some (s', evs)) :
    s.lastCheckTime ≤ s'.lastCheckTime ∧
    s'.lastCheckTime = evs.foldl (fun a m => max a m.createdAt) s.lastCheckTime ∧
    (∀ m ∈ evs, s.lastCheckTime < m.createdAt) ∧
    (evs ≠ [] → ∃ m ∈ evs, s'.lastCheckTime = m.createdAt ∧
      ∀ m' ∈ evs, m'.createdAt ≤ s'.lastCheckTime) := by
  obtain ⟨h1, h2, h3⟩ := runTicks_aux fU fC fuel bs s s' evs hrun
  refine ⟨h1, h2, h3, ?_⟩
  intro hne
  have h2' : s'.lastCheckTime =
      (evs.map (fun m => m.createdAt)).foldl max s.lastCheckTime := by
    rw [h2, List.foldl_map]
  rcases foldl_max_choice (evs.map (fun m => m.createdAt)) s.lastCheckTime
    with hc | hc
  · obtain ⟨m0, hm0⟩ := List.exists_mem_of_ne_nil evs hne
    have hlt := h3 m0 hm0
    have hle : m0.createdAt ≤
        (evs.map (fun m => m.createdAt)).foldl max s.lastCheckTime :=
      mem_le_foldl_max _ _ _ (List.mem_map_of_mem _ hm0)
    rw [hc] at hle
    omega
  · rcases List.mem_map.mp hc with ⟨m, hm, hmc⟩
    refine ⟨m, hm, ?_, ?_⟩
    · rw [h2', ← hmc]
    · intro m' hm'
      have hb := mem_le_foldl_max (evs.map (fun m => m.createdAt))
        s.lastCheckTime m'.createdAt (List.mem_map_of_mem _ hm')
      rw [← h2'] at hb
      exact hb

/-- C4: path resolution walks parents prepending "/" + name and stops at the
sentinel root or an empty parent with "/channels" + accumulated, so the
chain `A(parent=B) ← B(parent=root)` gives "/channels/B/A"; a chain with a
missing ancestor (failed fetch) resolves to the unresolved result "";
every non-empty result is the complete chain path as recorded in the final
channel map — a partial path is never emitted; and no UPDATE carrying an
empty path is ever published, so an event with an unresolvable channel is
dropped. -/
theorem resolveChannelPath_spec :
    resolveChannelPath noFetchC 3 cmAB "a" = some ("/channels/B/A", cmAB) ∧
    resolveChannelPath noFetchC 3 cmMiss "a" = some ("", cmMiss) ∧
    (∀ (fC : String → Option Channel) (fuel : Nat)
      (cm : List (String × Channel)) (cur acc r : String)
      (cm' : List (String × Channel)),
      pathLoop fC fuel cm cur acc = some (r, cm') → r ≠ "" →
      pathFrom fuel cm' cur acc = some r) ∧
    (∀ (fU : String → Option User) (fC : String → Option Channel)
      (fuel : Nat) (s : SysState) (msgs : List ActivityMessage)
      (s' : SysState) (out : List ExtensionUpdate),
      processTimeline fU fC fuel s msgs = some (s', out) →
      ∀ u ∈ out, u.channelPath ≠ "") := by
  refine ⟨by decide, by decide, pathLoop_complete, ?_⟩
  intro fU fC fuel s msgs s' out h u hu
  obtain ⟨acc, hpl, hout, hls, hgood⟩ :=
    processTimeline_shape fU fC fuel s msgs s' out h
  rw [hout] at hu
  rcases List.mem_map.mp hu with ⟨e, he, hes⟩
  rw [← hes]
  exact (hgood.2 e he).2.1

/-- C7 counterexample: the claim says that when a cycle is encountered the
resolution "fails for that lookup only rather than looping forever"; but on
the cyclic channel map `cmCyc` (both entries present, parents forming a
2-cycle) the resolution loop started at "a" never returns, whatever
iteration bound it is granted — the Go loop runs forever. -/
theorem resolveChannelPath_cycle_refuted : cycleDiverges :=
  fun fuel acc => pathLoop_cyc_none fuel "a" acc (Or.inl rfl)

/-- C7 (amended): resolution terminates for every start id whose parent
chain through the channel map reaches the sentinel root or an empty parent
(one loop iteration per hop, with the result stable for every sufficient
iteration bound); a hop whose entity is missing and whose fetch fails makes
that single lookup return unresolved immediately; but no hop bound is
enforced, and on a cyclic parent chain the loop never returns. -/
theorem resolveChannelPath_termination (fC : String → Option Channel)
    (cm : List (String × Channel)) (id : String) (n : Nat) (acc : String)
    (h : Rooted cm id n) :
    (∃ r, ∀ fuel, n + 1 ≤ fuel → pathLoop fC fuel cm id acc = some r) ∧
    (∀ (cm₂ : List (String × Channel)) (cur acc₂ : String) (fuel : Nat),
      mapLookup cm₂ cur = none → fC cur = none →
      pathLoop fC (fuel + 1) cm₂ cur acc₂ = some ("", cm₂)) ∧
    cycleDiverges := by
  refine ⟨pathLoop_rooted fC cm id n h acc, ?_,
    fun fuel a => pathLoop_cyc_none fuel "a" a (Or.inl rfl)⟩
  intro cm₂ cur acc₂ fuel hl hf
  simp only [pathLoop, hl, hf]

/-- C9 counterexample: two concurrent callers that both miss the cache for
the same id each issue their own remote fetch — the run performs two
fetches, refuting "at most one remote single-entity fetch is issued" — even
though both callers finish with the same value. -/
theorem resolveUser_single_fetch_refuted :
    (concRun fetchAlice "u1" (concStart 2) [0, 1, 0, 1]).fetchCount = 2 ∧
    ¬(concRun fetchAlice "u1" (concStart 2) [0, 1, 0, 1]).fetchCount ≤ 1 ∧
    (concRun fetchAlice "u1" (concStart 2) [0, 1, 0, 1]).phases =
      [CallerPhase.done "alice", CallerPhase.done "alice"] := by
  decide

/-- C9 (amended): when N concurrent callers resolve the same id, each caller
that misses the cache may issue its own fetch (the code does not limit the
number of in-flight fetches), but every caller that completes returns
exactly the final cached value — so all completed callers agree — and a
caller that finds a concurrently written value when re-acquiring the lock
discards its own fetch result and returns the existing value. -/
theorem resolveUser_learn_once (fetchU : String → Option User) (uid : String)
    (n : Nat) (sched : List Nat) :
    (∀ (i : Nat) (r : String),
      (concRun fetchU uid (concStart n) sched).phases[i]? = some (.done r) →
      mapLookup (concRun fetchU uid (concStart n) sched).userMap uid = some r) ∧
    (∀ (i j : Nat) (r r' : String),
      (concRun fetchU uid (concStart n) sched).phases[i]? = some (.done r) →
      (concRun fetchU uid (concStart n) sched).phases[j]? = some (.done r') →
      r = r') ∧
    (∀ (s : ConcState) (i : Nat) (res : Option User) (name : String),
      s.phases[i]? = some (.fetched res) → mapLookup s.userMap uid = some name →
      concStep fetchU uid s i = { s with phases := s.phases.set i (.done name) }) := by
  have hinv := concRun_inv fetchU uid sched (concStart n) (concStart_inv uid n)
  refine ⟨hinv, ?_, ?_⟩
  · intro i j r r' hi hj
    have h1 := hinv i r hi
    have h2 := hinv j r' hj
    exact Option.some_injective _ (h1.symm.trans h2)
  · intro st i res name hp hl
    simp only [concStep, hp, hl]

/-- C8: a feasible interleaving of the code's critical sections in which
connection 0 registers while the StateStore is already non-empty and a
publish batch holds the state lock: the remaining UPDATE of the batch is
delivered to the new connection before its INIT snapshot (which must wait
for the state lock), so the first message it receives is an UPDATE, not the
INIT — refuting the claim that the INIT always comes first. -/
theorem notify_update_before_init :
    wfTrace raceTrace = true ∧
    (notifyRun notify0 [.beginTick, .pubUpdate updAlice]).store ≠ [] ∧
    msgsTo 0 (notifyRun notify0 raceTrace) =
      [NotifyMsg.update updBob,
       NotifyMsg.init [("/channels/general", "bob")]] := by
  decide

/-- C1: within one tick, with the batch newest-first and strictly ordered by
`createdAt`, every channel path that appears in two or more resolved
retained events gets exactly one published UPDATE; that UPDATE is the one
computed for the chronologically last resolved event for the path, and the
StateStore entry for the path ends equal to its username. -/
theorem processTimeline_dedup_last (fU : String → Option User)
    (fC : String → Option Channel) (fuel : Nat) (s : SysState)
    (msgs : List ActivityMessage) (s' : SysState) (out : List ExtensionUpdate)
    (seq : List (ActivityMessage × ExtensionUpdate))
    (um' : List (String × String)) (cm' : List (String × Channel)) (p : String)
    (hsorted : msgs.Pairwise (fun m1 m2 => m2.createdAt < m1.createdAt))
    (hrun : processTimeline fU fC fuel s msgs = some (s', out))
    (hseq : resolvedEvents fU fC fuel s.lastCheckTime s.userMap s.channelMap
        msgs.reverse = some (seq, um', cm'))
    (hp : 2 ≤ (seq.filter (fun mu => mu.2.channelPath = p)).length) :
    ∃ mu, mu ∈ seq ∧ mu.2.channelPath = p ∧
      (∀ mu' ∈ seq, mu'.2.channelPath = p → mu'.1.createdAt ≤ mu.1.createdAt) ∧
      out.filter (fun u => u.channelPath = p) = [mu.2] ∧
      mapLookup s'.lastSpeakers p = some mu.2.username := by
  obtain ⟨acc, hpl, hout, hls, hgood⟩ :=
    processTimeline_shape fU fC fuel s msgs s' out hrun
  obtain ⟨seq₀, hre, hupd, hsub⟩ :=
    processLoop_resolved fU fC fuel s.lastCheckTime msgs.reverse _ acc hpl
  have hre' : resolvedEvents fU fC fuel s.lastCheckTime s.userMap s.channelMap
      msgs.reverse = some (seq₀, acc.userMap, acc.channelMap) := hre
  rw [hre'] at hseq
  injection hseq with hseq
  injection hseq with hseq1 hseq2
  rw [hseq1] at hupd hsub
  have hflne : seq.filter (fun mu => mu.2.channelPath = p) ≠ [] := by
    intro hc
    rw [hc] at hp
    simp at hp
  have hmem : (seq.filter (fun mu => mu.2.channelPath = p)).getLast hflne ∈
      seq.filter (fun mu => mu.2.channelPath = p) := List.getLast_mem hflne
  have hrev : msgs.reverse.Pairwise (fun m1 m2 => m1.createdAt < m2.createdAt) := by
    rw [List.pairwise_reverse]
    exact hsorted
  have hmapp : (seq.map Prod.fst).Pairwise
      (fun m1 m2 => m1.createdAt < m2.createdAt) :=
    List.Pairwise.sublist hsub hrev
  have hseqp : seq.Pairwise (fun x y => x.1.createdAt < y.1.createdAt) := by
    rw [List.pairwise_map] at hmapp
    exact hmapp
  have hflp : (seq.filter (fun mu => mu.2.channelPath = p)).Pairwise
      (fun x y => x.1.createdAt < y.1.createdAt) :=
    List.Pairwise.sublist (List.filter_sublist seq) hseqp
  have hupd' : acc.updates = seq.foldl
      (fun m mu => mapInsert m mu.2.channelPath mu.2)
      ([] : List (String × ExtensionUpdate)) := hupd
  have hgen : mapLookup (seq.foldl
      (fun m mu => mapInsert m mu.2.channelPath mu.2)
      ([] : List (String × ExtensionUpdate))) p =
      ((seq.filter (fun mu => mu.2.channelPath = p)).getLast?).elim
        (mapLookup ([] : List (String × ExtensionUpdate)) p)
        (fun u => some u.2) :=
    mapLookup_foldl_mapInsert (fun mu => mu.2.channelPath) (fun mu => mu.2)
      seq [] p
  have hlook : mapLookup acc.updates p =
      some ((seq.filter (fun mu => mu.2.channelPath = p)).getLast hflne).2 := by
    rw [hupd', hgen, List.getLast?_eq_getLast _ hflne]
    rfl
  have hsing : acc.updates.filter (fun e => e.1 = p) =
      [(p, ((seq.filter (fun mu => mu.2.channelPath = p)).getLast hflne).2)] :=
    filter_key_singleton acc.updates p _ hgood.1 hlook
  refine ⟨(seq.filter (fun mu => mu.2.channelPath = p)).getLast hflne,
    List.mem_of_mem_filter hmem,
    of_decide_eq_true (List.mem_filter.mp hmem).2, ?_, ?_, ?_⟩
  · intro mu' hmu' hmup
    have hmu'fl : mu' ∈ seq.filter (fun mu => mu.2.channelPath = p) :=
      List.mem_filter.mpr ⟨hmu', decide_eq_true hmup⟩
    have hdec := List.dropLast_append_getLast hflne
    have hmu'' : mu' ∈ (seq.filter (fun mu => mu.2.channelPath = p)).dropLast ++
        [(seq.filter (fun mu => mu.2.channelPath = p)).getLast hflne] := by
      rw [hdec]
      exact hmu'fl
    have hflp' : ((seq.filter (fun mu => mu.2.channelPath = p)).dropLast ++
        [(seq.filter (fun mu => mu.2.channelPath = p)).getLast hflne]).Pairwise
        (fun x y => x.1.createdAt < y.1.createdAt) := by
      rw [hdec]
      exact hflp
    rcases List.mem_append.mp hmu'' with hin | hin
    · exact le_of_lt ((List.pairwise_append.mp hflp').2.2 mu' hin _
        (List.mem_singleton_self _))
    · rw [List.mem_singleton.mp hin]
  · rw [hout, List.filter_map]
    have hcg : acc.updates.filter
        ((fun u => decide (u.channelPath = p)) ∘ Prod.snd) =
        acc.updates.filter (fun e => e.1 = p) := by
      apply List.filter_congr
      intro e he
      simp only [Function.comp]
      rw [(hgood.2 e he).1]
    rw [hcg, hsing]
    rfl
  · rw [hls]
    have hgen2 : mapLookup (acc.updates.foldl
        (fun ls pu => mapInsert ls pu.1 pu.2.username) s.lastSpeakers) p =
        ((acc.updates.filter (fun pu => pu.1 = p)).getLast?).elim
          (mapLookup s.lastSpeakers p) (fun pu => some pu.2.username) :=
      mapLookup_foldl_mapInsert (fun pu => pu.1) (fun pu => pu.2.username)
        acc.updates s.lastSpeakers p
    rw [hgen2, hsing]
    rfl

theorem processTimeline_dedup_last_witness :
    ∃ mu, mu ∈ [(msgAlice, updAlice), (msgBob, updBob)] ∧
      mu.2.channelPath = "/channels/general" ∧
      (∀ mu' ∈ [(msgAlice, updAlice), (msgBob, updBob)],
        mu'.2.channelPath = "/channels/general" →
        mu'.1.createdAt ≤ mu.1.createdAt) ∧
      List.filter (fun u => u.channelPath = "/channels/general") [updBob] =
        [mu.2] ∧
      mapLookup sGenAfter.lastSpeakers "/channels/general" =
        some mu.2.username :=
  processTimeline_dedup_last noFetchU noFetchC 5 sGen [msgBob, msgAlice]
    sGenAfter [updBob] [(msgAlice, updAlice), (msgBob, updBob)] umWarm cmGen
    "/channels/general" (by decide) (by decide) (by decide) (by decide)

theorem runTicks_watermark_witness :
    sGen.lastCheckTime ≤ sGenAfter.lastCheckTime ∧
    sGenAfter.lastCheckTime = [msgAlice, msgBob].foldl
      (fun a m => max a m.createdAt) sGen.lastCheckTime ∧
    (∀ m ∈ [msgAlice, msgBob], sGen.lastCheckTime < m.createdAt) ∧
    ([msgAlice, msgBob] ≠ [] → ∃ m ∈ [msgAlice, msgBob],
      sGenAfter.lastCheckTime = m.createdAt ∧
      ∀ m' ∈ [msgAlice, msgBob], m'.createdAt ≤ sGenAfter.lastCheckTime) :=
  runTicks_watermark noFetchU noFetchC 5 [[msgBob, msgAlice]] sGen sGenAfter
    [msgAlice, msgBob] (by decide)

theorem resolveUser_webhook_fallback_witness :
    resolveUser noFetchU [] "u9" = ⟨"webhook", mapInsert [] "u9" "webhook", true⟩ ∧
    mapLookup (mapInsert [] "u9" "webhook") "u9" = some "webhook" ∧
    (∀ (fetchU' : String → Option User) (um' : List (String × String)),
      mapLookup um' "u9" = some "webhook" →
      resolveUser fetchU' um' "u9" = ⟨"webhook", um', false⟩) :=
  resolveUser_webhook_fallback noFetchU [] "u9" rfl rfl

theorem pollTick_error_skips_witness :
    pollTick noFetchU noFetchC 5 sGen .transportError = some (sGen, []) ∧
    pollTick noFetchU noFetchC 5 sGen (.response 404 (some [msgAlice])) =
      some (sGen, []) ∧
    pollTick noFetchU noFetchC 5 sGen (.response 200 none) = some (sGen, []) :=
  ⟨(pollTick_error_skips noFetchU noFetchC 5 sGen).1,
   (pollTick_error_skips noFetchU noFetchC 5 sGen).2.1 404 (some [msgAlice])
     (by decide),
   (pollTick_error_skips noFetchU noFetchC 5 sGen).2.2⟩

theorem resolveChannelPath_termination_witness :
    (∃ r, ∀ fuel, 1 + 1 ≤ fuel → pathLoop noFetchC fuel cmAB "a" "" = some r) ∧
    (∀ (cm₂ : List (String × Channel)) (cur acc₂ : String) (fuel : Nat),
      mapLookup cm₂ cur = none → noFetchC cur = none →
      pathLoop noFetchC (fuel + 1) cm₂ cur acc₂ = some ("", cm₂)) ∧
    cycleDiverges :=
  resolveChannelPath_termination noFetchC cmAB "a" 1 ""
    (Rooted.step "a" ⟨"a", "A", "b"⟩ 0 rfl (by decide)
      (Rooted.base "b" ⟨"b", "B", rootSentinel⟩ rfl (Or.inr rfl)))

theorem resolveUser_learn_once_witness :
    mapLookup (concRun fetchAlice "u1" (concStart 2) [0, 1, 0, 1]).userMap
      "u1" = some "alice" :=
  (resolveUser_learn_once fetchAlice "u1" 2 [0, 1, 0, 1]).1 0 "alice" (by decide)

theorem processTimeline_frame_witness :
    processTimeline noFetchU noFetchC 5 sGenAfter [msgAlice, msgBob] =
      some (sGenAfter, []) :=
  processTimeline_frame noFetchU noFetchC 5 sGenAfter [msgAlice, msgBob]
    (by decide)

end IQon
